import Mathlib

/-!
A shallow embedding of the OCR traceability-extraction pipeline implemented by
`process_image` in `src/app.py` of the cigarette-app repository, together with
proofs about it.

The image handling of the source (cv2 decoding, grayscale, threshold,
dilation) and the external OCR engine (pytesseract) are I/O; the core logic
modelled here is everything `process_image` does with the per-variant
recognizer text blobs (lines 54-83 of `src/app.py`).  A text blob is a
`List Char`, and the pipeline is the function of the list of per-variant
blobs, in pass order.

The three regular expressions of the source are embedded as deterministic
matchers.  Every greedy quantifier choice in them is forced, because each
greedy subpattern is followed by a disjoint character class - except the
trailing `\d{2,4}\b` of the loose date pattern, whose backtracking is embedded
explicitly (`eatYearB`): try four digits, then three, then two, each followed
by a word boundary.  `findall` is embedded as the standard left-to-right scan
producing the non-overlapping leftmost matches (`scanAux`); the scan carries a
fuel argument instantiated with the length of the text, which never runs out
because every step consumes at least one character.

Character classes follow Python's `re` module on ASCII text (all inputs
considered in the theorems are ASCII): `\s` is space, tab, newline, carriage
return, vertical tab and form feed; `\w` is alphanumeric or underscore; `\d`
is a decimal digit.
-/

namespace CigApp

/-- ASCII model of the regex class `\s` (Python whitespace). -/
def isPySpace (c : Char) : Bool :=
  c = ' ' || c = '\t' || c = '\n' || c = '\r' || c = '\x0b' || c = '\x0c'

/-- ASCII model of the regex class `\w` (word characters). -/
def isWordChar (c : Char) : Bool :=
  c.isAlphanum || c = '_'

/-- The class `[A-Z0-9]` of the code pattern of `src/app.py` line 58. -/
def isCodeChar (c : Char) : Bool :=
  c.isUpper || c.isDigit

/-- The separator class `[./\-\s]` inside the anchored date group of
    `src/app.py` line 63. -/
def isMfdSep (c : Char) : Bool :=
  c = '.' || c = '/' || c = '-' || isPySpace c

/-- Consume one character satisfying `p`. -/
def eatChar (p : Char → Bool) : List Char → Option (Char × List Char)
  | [] => none
  | c :: r => if p c then some (c, r) else none

/-- Consume exactly `n` characters satisfying `p`. -/
def eatN (p : Char → Bool) : Nat → List Char → Option (List Char × List Char)
  | 0, l => some ([], l)
  | _ + 1, [] => none
  | n + 1, c :: r =>
    if p c then (eatN p n r).map (fun pr => (c :: pr.1, pr.2)) else none

/-- Greedy `\d{2,4}` with nothing after it in the pattern: maximal munch of
    up to four digits, at least two (so: four if available, else three, else
    two). -/
def eatYear (l : List Char) : Option (List Char × List Char) :=
  match eatN Char.isDigit 4 l with
  | some res => some res
  | none =>
    match eatN Char.isDigit 3 l with
    | some res => some res
    | none => eatN Char.isDigit 2 l

/-- A word boundary after a word character: the next character is absent or
    not a word character. -/
def boundaryAfter : List Char → Bool
  | [] => true
  | c :: _ => !isWordChar c

/-- A word boundary before a word character: the previous character (`none`
    at the start of the text) is absent or not a word character. -/
def boundaryBeforeWord : Option Char → Bool
  | none => true
  | some c => !isWordChar c

/-- Exactly `n` digits followed by a word boundary. -/
def eatNDigitsB (n : Nat) (l : List Char) : Option (List Char × List Char) :=
  match eatN Char.isDigit n l with
  | none => none
  | some (ds, r) => if boundaryAfter r then some (ds, r) else none

/-- Backtracking embedding of the trailing `\d{2,4}\b` of the loose date
    pattern: greedily try four digits, then three, then two, each followed by
    a word boundary. -/
def eatYearB (l : List Char) : Option (List Char × List Char) :=
  match eatNDigitsB 4 l with
  | some res => some res
  | none =>
    match eatNDigitsB 3 l with
    | some res => some res
    | none => eatNDigitsB 2 l

/-- The date-group core `\d{2}<sep>\d{2}<sep><year>` shared by the anchored
    and the loose date patterns; `sepP` is the separator class and `yEat` the
    embedding of the trailing `\d{2,4}` part.  Returns the matched group and
    the rest of the text. -/
def matchDateCore (sepP : Char → Bool) (yEat : List Char → Option (List Char × List Char))
    (l : List Char) : Option (List Char × List Char) :=
  match eatN Char.isDigit 2 l with
  | none => none
  | some (d1, r1) =>
    match eatChar sepP r1 with
    | none => none
    | some (s1, r2) =>
      match eatN Char.isDigit 2 r2 with
      | none => none
      | some (d2, r3) =>
        match eatChar sepP r3 with
        | none => none
        | some (s2, r4) =>
          match yEat r4 with
          | none => none
          | some (dy, r5) => some (d1 ++ s1 :: (d2 ++ s2 :: dy), r5)

/-- The greedy optional dot `\.?`: consume a leading `.` when present. -/
def eatDot (l : List Char) : List Char :=
  match eatChar (fun c => c = '.') l with
  | some (_, rd) => rd
  | none => l

/-- The `\s*ON[:\s]*` tail of the anchor (case-insensitive). -/
def eatAnchorTail (r4 : List Char) : Option (List Char) :=
  match eatChar (fun c => c = 'O' || c = 'o') (r4.dropWhile isPySpace) with
  | none => none
  | some (_, r6) =>
    match eatChar (fun c => c = 'N' || c = 'n') r6 with
    | none => none
    | some (_, r7) => some (r7.dropWhile fun c => c = ':' || isPySpace c)

/-- The anchor part `MFD\.?\s*ON[:\s]*` of the anchored pattern
    (case-insensitive, `src/app.py` line 63), at the start of `l`.  Returns
    the rest of the text after the anchor.  The optional dot and the starred
    classes are greedy; each of them is disjoint from what must follow it,
    so this deterministic reading is the regex semantics. -/
def eatAnchor (l : List Char) : Option (List Char) :=
  match eatChar (fun c => c = 'M' || c = 'm') l with
  | none => none
  | some (_, r1) =>
    match eatChar (fun c => c = 'F' || c = 'f') r1 with
    | none => none
    | some (_, r2) =>
      match eatChar (fun c => c = 'D' || c = 'd') r2 with
      | none => none
      | some (_, r3) => eatAnchorTail (eatDot r3)

/-- One attempt, at the start of `l`, of the anchored pattern
    `MFD\.?\s*ON[:\s]*(\d{2}[./\-\s]\d{2}[./\-\s]\d{2,4})` of `src/app.py`
    line 63.  Returns the captured date group and the rest of the text after
    the whole match. -/
def matchMFDAt (l : List Char) : Option (List Char × List Char) :=
  match eatAnchor l with
  | none => none
  | some r => matchDateCore isMfdSep eatYear r

/-- One attempt, at the start of `l`, of the loose date pattern
    `\b\d{2}[/]\d{2}[/]\d{2,4}\b` of `src/app.py` line 68; `prev` is the
    character just before `l` in the scanned text. -/
def matchLooseAt (prev : Option Char) (l : List Char) : Option (List Char × List Char) :=
  if boundaryBeforeWord prev then matchDateCore (fun c => c = '/') eatYearB l else none

/-- The body of the code pattern
    `[A-Z0-9]{3}\s[A-Z0-9]{3}\s[A-Z0-9]{3}\s[A-Z0-9]{3}\b` at the start of
    `l` (`src/app.py` line 58). -/
def matchCodeBody (l : List Char) : Option (List Char × List Char) :=
  match eatN isCodeChar 3 l with
  | none => none
  | some (g1, r1) =>
    match eatChar isPySpace r1 with
    | none => none
    | some (s1, r2) =>
      match eatN isCodeChar 3 r2 with
      | none => none
      | some (g2, r3) =>
        match eatChar isPySpace r3 with
        | none => none
        | some (s2, r4) =>
          match eatN isCodeChar 3 r4 with
          | none => none
          | some (g3, r5) =>
            match eatChar isPySpace r5 with
            | none => none
            | some (s3, r6) =>
              match eatN isCodeChar 3 r6 with
              | none => none
              | some (g4, r7) =>
                if boundaryAfter r7 then
                  some (g1 ++ s1 :: (g2 ++ s2 :: (g3 ++ s3 :: g4)), r7)
                else none

/-- One attempt, at the start of `l`, of the code pattern (with its leading
    word boundary); `prev` is the character just before `l`. -/
def matchCodeAt (prev : Option Char) (l : List Char) : Option (List Char × List Char) :=
  if boundaryBeforeWord prev then matchCodeBody l else none

/-- Left-to-right scan producing the non-overlapping leftmost matches of a
    pattern, as Python `re.findall`: at each position attempt the match; on
    success emit it and resume after it, otherwise advance one character.
    The fuel argument, instantiated with the length of the text, never runs
    out: every step consumes at least one character. -/
def scanAux (step : Option Char → List Char → Option (List Char × List Char)) :
    Nat → Option Char → List Char → List (List Char)
  | 0, _, _ => []
  | _ + 1, _, [] => []
  | fuel + 1, prev, c :: rest =>
    match step prev (c :: rest) with
    | some (m, r) => m :: scanAux step fuel m.getLast? r
    | none => scanAux step fuel (some c) rest

/-- `mfd_pattern.findall(text)` of `src/app.py` line 64 (the captured
    groups). -/
def mfdFindall (l : List Char) : List (List Char) :=
  scanAux (fun _ t => matchMFDAt t) l.length none l

/-- `code_pattern.findall(text)` of `src/app.py` line 59. -/
def codeFindall (l : List Char) : List (List Char) :=
  scanAux matchCodeAt l.length none l

/-- `loose_date_pattern.findall(text)` of `src/app.py` line 69. -/
def looseFindall (l : List Char) : List (List Char) :=
  scanAux matchLooseAt l.length none l

/-- Per-variant code extraction (`src/app.py` lines 58-59). -/
def extract_codes (text : List Char) : List (List Char) :=
  codeFindall text

/-- Per-variant date extraction (`src/app.py` lines 63-69): the anchored
    matches when there are any, otherwise the loose matches. -/
def extract_dates (text : List Char) : List (List Char) :=
  if (mfdFindall text).isEmpty then looseFindall text else mfdFindall text

/-- Python `str.replace(a, b)` for single characters. -/
def replaceChar (a b : Char) (l : List Char) : List Char :=
  l.map fun c => if c = a then b else c

/-- `d.replace('.', '/').replace('-', '/').replace(' ', '/')` of
    `src/app.py` line 79. -/
def normalizeDate (d : List Char) : List Char :=
  replaceChar ' ' '/' (replaceChar '-' '/' (replaceChar '.' '/' d))

/-- `Counter(l).most_common(1)[0][0]` of CPython 3.7+: the counter stores its
    keys in first-insertion order and `most_common` sorts stably by
    descending count, so the selected key is the earliest-encountered element
    of `l` whose multiplicity in `l` is maximal - which is what this
    returns (`none` on the empty list). -/
def most_common1 (l : List (List Char)) : Option (List Char) :=
  l.find? fun s => l.all fun t => decide (l.count t ≤ l.count s)

/-- The multiset of normalized date observations of one pipeline run, in
    encounter order across the variant passes (`src/app.py` lines 71
    and 79). -/
def dateObservations (texts : List (List Char)) : List (List Char) :=
  ((texts.map extract_dates).flatten).map normalizeDate

/-- The result aggregation of `process_image` (`src/app.py` lines 41-83), as
    a function of the list of per-variant recognizer text blobs: the
    lexicographically sorted deduplicated code set, and the most common
    normalized date (empty when no date-shaped string was found).  The
    source accumulates codes in a Python `set` and applies `sorted`; the
    sorted deduplication below has exactly that value. -/
def process_image (texts : List (List Char)) : List (List Char) × List Char :=
  let all_found_codes := (texts.map extract_codes).flatten
  let all_found_dates := (texts.map extract_dates).flatten
  let final_codes := List.insertionSort (· ≤ ·) all_found_codes.dedup
  let detected_date :=
    if all_found_dates.isEmpty then []
    else (most_common1 (all_found_dates.map normalizeDate)).getD []
  (final_codes, detected_date)

/-- The sequential per-pass recognizer calls of the loop of `src/app.py`
    lines 54-55: the loop stops at the first raising `image_to_string` call
    and the exception propagates, so the texts of a run exist only if every
    call succeeded. -/
def gatherTexts : List (Except String (List Char)) → Except String (List (List Char))
  | [] => Except.ok []
  | Except.error e :: _ => Except.error e
  | Except.ok t :: rest =>
    match gatherTexts rest with
    | Except.error e => Except.error e
    | Except.ok ts => Except.ok (t :: ts)

/-- `process_image` with the fallibility of the external recognizer made
    explicit: each entry is the outcome of one per-variant
    `pytesseract.image_to_string` call, and any failure propagates out of the
    pipeline (there is no try/except in `process_image`). -/
def process_imageE (results : List (Except String (List Char))) :
    Except String (List (List Char) × List Char) :=
  match gatherTexts results with
  | Except.error e => Except.error e
  | Except.ok ts => Except.ok (process_image ts)

/-- A date-shaped token: two digits, a separator, two digits, a separator,
    two to four digits, with both separators drawn from `sep`. -/
def dateShaped (sep : Char → Bool) : List Char → Bool
  | a :: b :: s1 :: c :: d :: s2 :: rest =>
    a.isDigit && b.isDigit && sep s1 && c.isDigit && d.isDigit && sep s2 &&
      decide (2 ≤ rest.length) && decide (rest.length ≤ 4) && rest.all Char.isDigit
  | _ => false

/-- Date-shaped with any separator the extractors of `src/app.py` can
    produce (the class `[./\-\s]`). -/
def dateShapedAny : List Char → Bool :=
  dateShaped isMfdSep

/-- Date-shaped with `/` separators: the shape of every loose match. -/
def slashShaped : List Char → Bool :=
  dateShaped fun c => c = '/'

/-- A code token as the source's pattern accepts it: four groups of three
    characters from `[A-Z0-9]`, the groups separated by single `\s`
    characters. -/
def codeShapedWS : List Char → Bool
  | [a, b, c, t1, d, e, f, t2, g, h, i, t3, j, k, m] =>
    isCodeChar a && isCodeChar b && isCodeChar c && isPySpace t1 &&
    isCodeChar d && isCodeChar e && isCodeChar f && isPySpace t2 &&
    isCodeChar g && isCodeChar h && isCodeChar i && isPySpace t3 &&
    isCodeChar j && isCodeChar k && isCodeChar m
  | _ => false

/-- Spec wording of the code grammar (spec §3, §4.3): four groups of three
    upper-case alphanumeric characters, each group separated by a single
    space character - written from the spec's words, to be compared with
    the source's `codeShapedWS`. -/
def spec_codeGrammar : List Char → Bool
  | [a, b, c, t1, d, e, f, t2, g, h, i, t3, j, k, m] =>
    isCodeChar a && isCodeChar b && isCodeChar c && (t1 = ' ') &&
    isCodeChar d && isCodeChar e && isCodeChar f && (t2 = ' ') &&
    isCodeChar g && isCodeChar h && isCodeChar i && (t3 = ' ') &&
    isCodeChar j && isCodeChar k && isCodeChar m
  | _ => false

/-- Spec wording of the fallback date shape (spec §4.4): date-shaped with the
    looser separator class `.`, `-`, `/` or whitespace - written from the
    spec's words, to be compared with what the source's fallback search
    returns. -/
def spec_looseDateShaped : List Char → Bool :=
  dateShaped fun c => c = '.' || c = '-' || c = '/' || isPySpace c

/-- All contiguous segments (substrings) of `t`. -/
def segmentsOf (t : List Char) : List (List Char) :=
  (t.tails.map List.inits).flatten

/-- Does `t` contain a code-shaped substring (in the source's sense)? -/
def hasCodeSeg (t : List Char) : Bool :=
  (segmentsOf t).any codeShapedWS

/-- Does `t` contain a date-shaped substring (any separator)? -/
def hasDateSeg (t : List Char) : Bool :=
  (segmentsOf t).any dateShapedAny

theorem eatChar_sound {p : Char → Bool} {l : List Char} {c : Char} {r : List Char}
    (h : eatChar p l = some (c, r)) : l = c :: r ∧ p c = true := by
  cases l with
  | nil => simp [eatChar] at h
  | cons a t =>
    by_cases hp : p a = true
    · simp [eatChar, hp] at h
      obtain ⟨rfl, rfl⟩ := h
      exact ⟨rfl, hp⟩
    · simp [eatChar, hp] at h

theorem eatN_sound {p : Char → Bool} :
    ∀ {n : Nat} {l cs r : List Char}, eatN p n l = some (cs, r) →
      l = cs ++ r ∧ cs.length = n ∧ ∀ c ∈ cs, p c = true := by
  intro n
  induction n with
  | zero =>
    intro l cs r h
    simp [eatN] at h
    obtain ⟨rfl, rfl⟩ := h
    simp
  | succ k ih =>
    intro l cs r h
    cases l with
    | nil => simp [eatN] at h
    | cons a t =>
      by_cases hp : p a = true
      · simp only [eatN, hp, if_true] at h
        rw [Option.map_eq_some'] at h
        obtain ⟨⟨cs0, r0⟩, h0, heq⟩ := h
        obtain ⟨rfl, rfl⟩ : a :: cs0 = cs ∧ r0 = r := by
          simpa using heq
        obtain ⟨ht, hlen, hall⟩ := ih h0
        refine ⟨by simp [ht], by simp [hlen], ?_⟩
        intro c hc
        rcases List.mem_cons.mp hc with rfl | hc
        · exact hp
        · exact hall c hc
      · simp [eatN, hp] at h

theorem eatYear_sound {l ds r : List Char} (h : eatYear l = some (ds, r)) :
    l = ds ++ r ∧ 2 ≤ ds.length ∧ ds.length ≤ 4 ∧ ∀ c ∈ ds, c.isDigit = true := by
  unfold eatYear at h
  cases h4 : eatN Char.isDigit 4 l with
  | some res =>
    obtain ⟨ds0, r0⟩ := res
    simp only [h4] at h
    obtain ⟨rfl, rfl⟩ : ds0 = ds ∧ r0 = r := by simpa using h
    obtain ⟨heq, hlen, hall⟩ := eatN_sound h4
    exact ⟨heq, by omega, by omega, hall⟩
  | none =>
    simp only [h4] at h
    cases h3 : eatN Char.isDigit 3 l with
    | some res =>
      obtain ⟨ds0, r0⟩ := res
      simp only [h3] at h
      obtain ⟨rfl, rfl⟩ : ds0 = ds ∧ r0 = r := by simpa using h
      obtain ⟨heq, hlen, hall⟩ := eatN_sound h3
      exact ⟨heq, by omega, by omega, hall⟩
    | none =>
      simp only [h3] at h
      obtain ⟨heq, hlen, hall⟩ := eatN_sound h
      exact ⟨heq, by omega, by omega, hall⟩

theorem eatNDigitsB_sound {n : Nat} {l ds r : List Char}
    (h : eatNDigitsB n l = some (ds, r)) :
    l = ds ++ r ∧ ds.length = n ∧ ∀ c ∈ ds, c.isDigit = true := by
  unfold eatNDigitsB at h
  cases hn : eatN Char.isDigit n l with
  | none =>
    simp only [hn] at h
    exact Option.noConfusion h
  | some res =>
    obtain ⟨ds0, r0⟩ := res
    simp only [hn] at h
    by_cases hb : boundaryAfter r0 = true
    · simp [hb] at h
      obtain ⟨rfl, rfl⟩ := h
      exact eatN_sound hn
    · simp [hb] at h

theorem eatYearB_sound {l ds r : List Char} (h : eatYearB l = some (ds, r)) :
    l = ds ++ r ∧ 2 ≤ ds.length ∧ ds.length ≤ 4 ∧ ∀ c ∈ ds, c.isDigit = true := by
  unfold eatYearB at h
  cases h4 : eatNDigitsB 4 l with
  | some res =>
    obtain ⟨ds0, r0⟩ := res
    simp only [h4] at h
    obtain ⟨rfl, rfl⟩ : ds0 = ds ∧ r0 = r := by simpa using h
    obtain ⟨heq, hlen, hall⟩ := eatNDigitsB_sound h4
    exact ⟨heq, by omega, by omega, hall⟩
  | none =>
    simp only [h4] at h
    cases h3 : eatNDigitsB 3 l with
    | some res =>
      obtain ⟨ds0, r0⟩ := res
      simp only [h3] at h
      obtain ⟨rfl, rfl⟩ : ds0 = ds ∧ r0 = r := by simpa using h
      obtain ⟨heq, hlen, hall⟩ := eatNDigitsB_sound h3
      exact ⟨heq, by omega, by omega, hall⟩
    | none =>
      simp only [h3] at h
      obtain ⟨heq, hlen, hall⟩ := eatNDigitsB_sound h
      exact ⟨heq, by omega, by omega, hall⟩

theorem dateShaped_build {sepP : Char → Bool} {d1 d2 dy : List Char} {s1 s2 : Char}
    (h1 : d1.length = 2) (ha1 : ∀ c ∈ d1, c.isDigit = true)
    (hs1 : sepP s1 = true)
    (h2 : d2.length = 2) (ha2 : ∀ c ∈ d2, c.isDigit = true)
    (hs2 : sepP s2 = true)
    (hy2 : 2 ≤ dy.length) (hy4 : dy.length ≤ 4) (hay : ∀ c ∈ dy, c.isDigit = true) :
    dateShaped sepP (d1 ++ s1 :: (d2 ++ s2 :: dy)) = true := by
  obtain ⟨a, b, rfl⟩ := List.length_eq_two.mp h1
  obtain ⟨c, d, rfl⟩ := List.length_eq_two.mp h2
  have haa := ha1 a (by simp)
  have hab := ha1 b (by simp)
  have hac := ha2 c (by simp)
  have had := ha2 d (by simp)
  simp [dateShaped, List.all_eq_true, haa, hab, hs1, hac, had, hs2, hy2, hy4]
  exact hay

theorem matchDateCore_sound {sepP : Char → Bool}
    {yEat : List Char → Option (List Char × List Char)}
    (hy : ∀ l ds r : List Char, yEat l = some (ds, r) →
      l = ds ++ r ∧ 2 ≤ ds.length ∧ ds.length ≤ 4 ∧ ∀ c ∈ ds, c.isDigit = true)
    {l g r : List Char} (h : matchDateCore sepP yEat l = some (g, r)) :
    l = g ++ r ∧ dateShaped sepP g = true := by
  unfold matchDateCore at h
  cases h1 : eatN Char.isDigit 2 l with
  | none => simp only [h1] at h; exact Option.noConfusion h
  | some pr1 =>
    obtain ⟨d1, r1⟩ := pr1
    simp only [h1] at h
    cases h2 : eatChar sepP r1 with
    | none => simp only [h2] at h; exact Option.noConfusion h
    | some pr2 =>
      obtain ⟨s1, r2⟩ := pr2
      simp only [h2] at h
      cases h3 : eatN Char.isDigit 2 r2 with
      | none => simp only [h3] at h; exact Option.noConfusion h
      | some pr3 =>
        obtain ⟨d2, r3⟩ := pr3
        simp only [h3] at h
        cases h4 : eatChar sepP r3 with
        | none => simp only [h4] at h; exact Option.noConfusion h
        | some pr4 =>
          obtain ⟨s2, r4⟩ := pr4
          simp only [h4] at h
          cases h5 : yEat r4 with
          | none => simp only [h5] at h; exact Option.noConfusion h
          | some pr5 =>
            obtain ⟨dy, r5⟩ := pr5
            simp only [h5] at h
            obtain ⟨rfl, rfl⟩ : d1 ++ s1 :: (d2 ++ s2 :: dy) = g ∧ r5 = r := by
              simpa using h
            obtain ⟨hl1, hlen1, hall1⟩ := eatN_sound h1
            obtain ⟨hl2, hpc1⟩ := eatChar_sound h2
            obtain ⟨hl3, hlen2, hall2⟩ := eatN_sound h3
            obtain ⟨hl4, hpc2⟩ := eatChar_sound h4
            obtain ⟨hl5, hy2, hy4, hally⟩ := hy _ _ _ h5
            refine ⟨?_, dateShaped_build hlen1 hall1 hpc1 hlen2 hall2 hpc2 hy2 hy4 hally⟩
            rw [hl1, hl2, hl3, hl4, hl5]
            simp

theorem eatDot_suffix (l : List Char) : eatDot l <:+ l := by
  unfold eatDot
  cases hd : eatChar (fun c => c = '.') l with
  | none => exact ⟨[], rfl⟩
  | some pr =>
    obtain ⟨c, rd⟩ := pr
    rw [(eatChar_sound hd).1]
    exact List.suffix_cons c rd

theorem eatAnchorTail_suffix {r4 r : List Char} (h : eatAnchorTail r4 = some r) :
    r <:+ r4 := by
  unfold eatAnchorTail at h
  cases hO : eatChar (fun c => c = 'O' || c = 'o') (r4.dropWhile isPySpace) with
  | none => simp only [hO] at h; exact Option.noConfusion h
  | some prO =>
    obtain ⟨cO, r6⟩ := prO
    simp only [hO] at h
    cases hN : eatChar (fun c => c = 'N' || c = 'n') r6 with
    | none => simp only [hN] at h; exact Option.noConfusion h
    | some prN =>
      obtain ⟨cN, r7⟩ := prN
      simp only [hN] at h
      obtain rfl : r7.dropWhile (fun c => c = ':' || isPySpace c) = r := by simpa using h
      have s1 : r7 <:+ r6 := by
        rw [(eatChar_sound hN).1]; exact List.suffix_cons cN r7
      have s2 : r6 <:+ r4.dropWhile isPySpace := by
        rw [(eatChar_sound hO).1]; exact List.suffix_cons cO r6
      exact ((List.dropWhile_suffix _).trans s1).trans (s2.trans (List.dropWhile_suffix _))

theorem eatAnchor_suffix {l r : List Char} (h : eatAnchor l = some r) : r <:+ l := by
  unfold eatAnchor at h
  cases hM : eatChar (fun c => c = 'M' || c = 'm') l with
  | none => simp only [hM] at h; exact Option.noConfusion h
  | some prM =>
    obtain ⟨cM, r1⟩ := prM
    simp only [hM] at h
    cases hF : eatChar (fun c => c = 'F' || c = 'f') r1 with
    | none => simp only [hF] at h; exact Option.noConfusion h
    | some prF =>
      obtain ⟨cF, r2⟩ := prF
      simp only [hF] at h
      cases hD : eatChar (fun c => c = 'D' || c = 'd') r2 with
      | none => simp only [hD] at h; exact Option.noConfusion h
      | some prD =>
        obtain ⟨cD, r3⟩ := prD
        simp only [hD] at h
        have s3 : r3 <:+ l := by
          rw [(eatChar_sound hM).1, (eatChar_sound hF).1, (eatChar_sound hD).1]
          exact ((List.suffix_cons cD r3).trans (List.suffix_cons cF _)).trans
            (List.suffix_cons cM _)
        exact ((eatAnchorTail_suffix h).trans (eatDot_suffix r3)).trans s3

theorem matchMFDAt_sound {l g r : List Char} (h : matchMFDAt l = some (g, r)) :
    (g ++ r) <:+ l ∧ dateShapedAny g = true := by
  unfold matchMFDAt at h
  cases hA : eatAnchor l with
  | none => simp only [hA] at h; exact Option.noConfusion h
  | some r8 =>
    simp only [hA] at h
    obtain ⟨heq, hshape⟩ :=
      matchDateCore_sound (fun _ _ _ hh => eatYear_sound hh) h
    exact ⟨heq ▸ eatAnchor_suffix hA, hshape⟩

theorem matchLooseAt_sound {prev : Option Char} {l m r : List Char}
    (h : matchLooseAt prev l = some (m, r)) :
    l = m ++ r ∧ slashShaped m = true := by
  unfold matchLooseAt at h
  by_cases hb : boundaryBeforeWord prev = true
  · rw [if_pos hb] at h
    exact matchDateCore_sound (fun _ _ _ hh => eatYearB_sound hh) h
  · rw [if_neg hb] at h
    exact Option.noConfusion h

theorem codeShaped_build {g1 g2 g3 g4 : List Char} {s1 s2 s3 : Char}
    (h1 : g1.length = 3) (ha1 : ∀ c ∈ g1, isCodeChar c = true)
    (hs1 : isPySpace s1 = true)
    (h2 : g2.length = 3) (ha2 : ∀ c ∈ g2, isCodeChar c = true)
    (hs2 : isPySpace s2 = true)
    (h3 : g3.length = 3) (ha3 : ∀ c ∈ g3, isCodeChar c = true)
    (hs3 : isPySpace s3 = true)
    (h4 : g4.length = 3) (ha4 : ∀ c ∈ g4, isCodeChar c = true) :
    codeShapedWS (g1 ++ s1 :: (g2 ++ s2 :: (g3 ++ s3 :: g4))) = true := by
  obtain ⟨a1, a2, a3, rfl⟩ := List.length_eq_three.mp h1
  obtain ⟨b1, b2, b3, rfl⟩ := List.length_eq_three.mp h2
  obtain ⟨c1, c2, c3, rfl⟩ := List.length_eq_three.mp h3
  obtain ⟨d1, d2, d3, rfl⟩ := List.length_eq_three.mp h4
  simp only [List.cons_append, List.nil_append, codeShapedWS]
  simp [ha1 a1 (by simp), ha1 a2 (by simp), ha1 a3 (by simp), hs1,
    ha2 b1 (by simp), ha2 b2 (by simp), ha2 b3 (by simp), hs2,
    ha3 c1 (by simp), ha3 c2 (by simp), ha3 c3 (by simp), hs3,
    ha4 d1 (by simp), ha4 d2 (by simp), ha4 d3 (by simp)]

theorem matchCodeBody_sound {l m r : List Char} (h : matchCodeBody l = some (m, r)) :
    l = m ++ r ∧ codeShapedWS m = true := by
  unfold matchCodeBody at h
  cases h1 : eatN isCodeChar 3 l with
  | none => simp only [h1] at h; exact Option.noConfusion h
  | some pr1 =>
    obtain ⟨g1, r1⟩ := pr1
    simp only [h1] at h
    cases h2 : eatChar isPySpace r1 with
    | none => simp only [h2] at h; exact Option.noConfusion h
    | some pr2 =>
      obtain ⟨s1, r2⟩ := pr2
      simp only [h2] at h
      cases h3 : eatN isCodeChar 3 r2 with
      | none => simp only [h3] at h; exact Option.noConfusion h
      | some pr3 =>
        obtain ⟨g2, r3⟩ := pr3
        simp only [h3] at h
        cases h4 : eatChar isPySpace r3 with
        | none => simp only [h4] at h; exact Option.noConfusion h
        | some pr4 =>
          obtain ⟨s2, r4⟩ := pr4
          simp only [h4] at h
          cases h5 : eatN isCodeChar 3 r4 with
          | none => simp only [h5] at h; exact Option.noConfusion h
          | some pr5 =>
            obtain ⟨g3, r5⟩ := pr5
            simp only [h5] at h
            cases h6 : eatChar isPySpace r5 with
            | none => simp only [h6] at h; exact Option.noConfusion h
            | some pr6 =>
              obtain ⟨s3, r6⟩ := pr6
              simp only [h6] at h
              cases h7 : eatN isCodeChar 3 r6 with
              | none => simp only [h7] at h; exact Option.noConfusion h
              | some pr7 =>
                obtain ⟨g4, r7⟩ := pr7
                simp only [h7] at h
                by_cases hb : boundaryAfter r7 = true
                · rw [if_pos hb] at h
                  obtain ⟨rfl, rfl⟩ :
                      g1 ++ s1 :: (g2 ++ s2 :: (g3 ++ s3 :: g4)) = m ∧ r7 = r := by
                    simpa using h
                  obtain ⟨hl1, hlen1, hall1⟩ := eatN_sound h1
                  obtain ⟨hl2, hpc1⟩ := eatChar_sound h2
                  obtain ⟨hl3, hlen2, hall2⟩ := eatN_sound h3
                  obtain ⟨hl4, hpc2⟩ := eatChar_sound h4
                  obtain ⟨hl5, hlen3, hall3⟩ := eatN_sound h5
                  obtain ⟨hl6, hpc3⟩ := eatChar_sound h6
                  obtain ⟨hl7, hlen4, hall4⟩ := eatN_sound h7
                  refine ⟨?_, codeShaped_build hlen1 hall1 hpc1 hlen2 hall2 hpc2
                    hlen3 hall3 hpc3 hlen4 hall4⟩
                  rw [hl1, hl2, hl3, hl4, hl5, hl6, hl7]
                  simp
                · rw [if_neg hb] at h
                  exact Option.noConfusion h

theorem matchCodeAt_sound {prev : Option Char} {l m r : List Char}
    (h : matchCodeAt prev l = some (m, r)) :
    l = m ++ r ∧ codeShapedWS m = true := by
  unfold matchCodeAt at h
  by_cases hb : boundaryBeforeWord prev = true
  · rw [if_pos hb] at h
    exact matchCodeBody_sound h
  · rw [if_neg hb] at h
    exact Option.noConfusion h

theorem scanAux_sound {step : Option Char → List Char → Option (List Char × List Char)}
    {shape : List Char → Bool}
    (hstep : ∀ prev l g r, step prev l = some (g, r) → (g ++ r) <:+ l ∧ shape g = true) :
    ∀ (fuel : Nat) (prev : Option Char) (l m : List Char),
      m ∈ scanAux step fuel prev l → m <:+: l ∧ shape m = true := by
  intro fuel
  induction fuel with
  | zero => intro prev l m h; simp [scanAux] at h
  | succ k ih =>
    intro prev l m h
    cases l with
    | nil => simp [scanAux] at h
    | cons c rest =>
      cases hs : step prev (c :: rest) with
      | none =>
        simp only [scanAux, hs] at h
        obtain ⟨hinf, hsh⟩ := ih (some c) rest m h
        exact ⟨hinf.trans (List.suffix_cons c rest).isInfix, hsh⟩
      | some pr =>
        obtain ⟨g, r⟩ := pr
        simp only [scanAux, hs] at h
        obtain ⟨u, hu⟩ := (hstep prev (c :: rest) g r hs).1
        rcases List.mem_cons.mp h with rfl | h
        · refine ⟨⟨u, r, ?_⟩, (hstep prev (c :: rest) m r hs).2⟩
          rw [← hu]
          simp
        · obtain ⟨hinf, hsh⟩ := ih g.getLast? r m h
          have hr : r <:+ c :: rest := by
            rw [← hu]
            exact (List.suffix_append g r).trans (List.suffix_append u (g ++ r))
          exact ⟨hinf.trans hr.isInfix, hsh⟩

theorem codeFindall_sound {l m : List Char} (h : m ∈ codeFindall l) :
    m <:+: l ∧ codeShapedWS m = true := by
  refine scanAux_sound ?_ l.length none l m h
  intro prev t g r hgr
  obtain ⟨heq, hsh⟩ := matchCodeAt_sound hgr
  exact ⟨by rw [heq], hsh⟩

theorem mfdFindall_sound {l m : List Char} (h : m ∈ mfdFindall l) :
    m <:+: l ∧ dateShapedAny m = true := by
  refine scanAux_sound ?_ l.length none l m h
  intro prev t g r hgr
  exact matchMFDAt_sound hgr

theorem looseFindall_sound {l m : List Char} (h : m ∈ looseFindall l) :
    m <:+: l ∧ slashShaped m = true := by
  refine scanAux_sound ?_ l.length none l m h
  intro prev t g r hgr
  obtain ⟨heq, hsh⟩ := matchLooseAt_sound hgr
  exact ⟨by rw [heq], hsh⟩

theorem dateShaped_mono {p q : Char → Bool} (hpq : ∀ c, p c = true → q c = true)
    {s : List Char} (hs : dateShaped p s = true) : dateShaped q s = true := by
  rcases s with _ | ⟨a, _ | ⟨b, _ | ⟨s1, _ | ⟨c, _ | ⟨d, _ | ⟨s2, rest⟩⟩⟩⟩⟩⟩ <;>
    simp [dateShaped, List.all_eq_true, and_assoc] at hs ⊢
  obtain ⟨h1, h2, h3, h4, h5, h6, h7, h8, h9⟩ := hs
  exact ⟨h1, h2, hpq _ h3, h4, h5, hpq _ h6, h7, h8, h9⟩

theorem slashShaped_any {s : List Char} (hs : slashShaped s = true) :
    dateShapedAny s = true := by
  refine dateShaped_mono ?_ hs
  intro c hc
  simp at hc
  simp [isMfdSep, hc]

theorem extract_codes_sound {t c : List Char} (h : c ∈ extract_codes t) :
    c <:+: t ∧ codeShapedWS c = true :=
  codeFindall_sound h

theorem extract_dates_sound {t d : List Char} (h : d ∈ extract_dates t) :
    d <:+: t ∧ dateShapedAny d = true := by
  unfold extract_dates at h
  by_cases he : (mfdFindall t).isEmpty = true
  · rw [if_pos he] at h
    obtain ⟨hinf, hsh⟩ := looseFindall_sound h
    exact ⟨hinf, slashShaped_any hsh⟩
  · rw [if_neg he] at h
    exact mfdFindall_sound h

theorem mem_segmentsOf {s t : List Char} : s ∈ segmentsOf t ↔ s <:+: t := by
  unfold segmentsOf
  rw [List.mem_flatten]
  constructor
  · rintro ⟨I, hI, hsI⟩
    obtain ⟨w, hw, rfl⟩ := List.mem_map.mp hI
    obtain ⟨u, hu⟩ := (List.mem_tails _ _).mp hw
    obtain ⟨v, hv⟩ := (List.mem_inits _ _).mp hsI
    exact ⟨u, v, by rw [← hu, ← hv]; simp⟩
  · rintro ⟨u, v, huv⟩
    refine ⟨(s ++ v).inits, List.mem_map.mpr ⟨s ++ v, ?_, rfl⟩, ?_⟩
    · exact (List.mem_tails _ _).mpr ⟨u, by rw [← huv]; simp⟩
    · exact (List.mem_inits _ _).mpr ⟨v, rfl⟩

theorem hasCodeSeg_of {t m : List Char} (hm : m <:+: t) (hs : codeShapedWS m = true) :
    hasCodeSeg t = true := by
  unfold hasCodeSeg
  rw [List.any_eq_true]
  exact ⟨m, mem_segmentsOf.mpr hm, hs⟩

theorem hasDateSeg_of {t m : List Char} (hm : m <:+: t) (hs : dateShapedAny m = true) :
    hasDateSeg t = true := by
  unfold hasDateSeg
  rw [List.any_eq_true]
  exact ⟨m, mem_segmentsOf.mpr hm, hs⟩

theorem find?_decomp {α : Type} {p : α → Bool} :
    ∀ {l : List α} {a : α}, l.find? p = some a →
      p a = true ∧ ∃ l₁ l₂, l = l₁ ++ a :: l₂ ∧ ∀ b ∈ l₁, p b = false := by
  intro l
  induction l with
  | nil => intro a h; simp at h
  | cons c t ih =>
    intro a h
    by_cases hc : p c = true
    · rw [List.find?_cons_of_pos t hc] at h
      obtain rfl : c = a := by simpa using h
      exact ⟨hc, [], t, rfl, by simp⟩
    · rw [List.find?_cons_of_neg t hc] at h
      obtain ⟨hpa, l₁, l₂, rfl, hl₁⟩ := ih h
      refine ⟨hpa, c :: l₁, l₂, rfl, ?_⟩
      intro b hb
      rcases List.mem_cons.mp hb with rfl | hb
      · simpa using hc
      · exact hl₁ b hb

theorem find?_total {α : Type} {p : α → Bool} :
    ∀ {l : List α}, (∃ a ∈ l, p a = true) → ∃ b, l.find? p = some b := by
  intro l
  induction l with
  | nil => rintro ⟨a, ha, _⟩; simp at ha
  | cons c t ih =>
    rintro ⟨a, ha, hpa⟩
    by_cases hc : p c = true
    · exact ⟨c, List.find?_cons_of_pos t hc⟩
    · rcases List.mem_cons.mp ha with rfl | ha
      · exact absurd hpa hc
      · obtain ⟨b, hb⟩ := ih ⟨a, ha, hpa⟩
        exact ⟨b, by rw [List.find?_cons_of_neg t hc]; exact hb⟩

theorem exists_max_count {α : Type} (f : α → Nat) :
    ∀ (l : List α), l ≠ [] → ∃ s ∈ l, ∀ t ∈ l, f t ≤ f s := by
  intro l
  induction l with
  | nil => intro h; exact absurd rfl h
  | cons c t ih =>
    intro _
    cases t with
    | nil => exact ⟨c, by simp, by simp⟩
    | cons d t2 =>
      obtain ⟨s, hs, hmax⟩ := ih (by simp)
      by_cases hcs : f c ≤ f s
      · refine ⟨s, by simp [hs], ?_⟩
        intro x hx
        rcases List.mem_cons.mp hx with rfl | hx
        · exact hcs
        · exact hmax x hx
      · refine ⟨c, by simp, ?_⟩
        intro x hx
        rcases List.mem_cons.mp hx with rfl | hx
        · exact le_refl _
        · exact le_trans (hmax x hx) (le_of_not_le hcs)

theorem most_common1_spec {l : List (List Char)} (h : l ≠ []) :
    ∃ m, most_common1 l = some m ∧ m ∈ l ∧
      (∀ s ∈ l, l.count s ≤ l.count m) ∧
      ∃ l₁ l₂, l = l₁ ++ m :: l₂ ∧ ∀ s ∈ l₁, l.count s < l.count m := by
  obtain ⟨s0, hs0, hmax⟩ := exists_max_count (fun s => l.count s) l h
  have hp0 : (l.all fun t => decide (l.count t ≤ l.count s0)) = true := by
    rw [List.all_eq_true]
    intro t ht
    exact decide_eq_true (hmax t ht)
  obtain ⟨m, hm⟩ :=
    find?_total (p := fun s => l.all fun t => decide (l.count t ≤ l.count s))
      ⟨s0, hs0, hp0⟩
  obtain ⟨hpm, l₁, l₂, heq, hl₁⟩ := find?_decomp hm
  have hmem : m ∈ l := List.mem_of_find?_eq_some hm
  have hmmax : ∀ s ∈ l, l.count s ≤ l.count m := by
    intro s hs
    exact of_decide_eq_true ((List.all_eq_true.mp hpm) s hs)
  refine ⟨m, hm, hmem, hmmax, l₁, l₂, heq, ?_⟩
  intro s hsl₁
  have hps := hl₁ s hsl₁
  have hsl : s ∈ l := by rw [heq]; exact List.mem_append_left _ hsl₁
  by_contra hcon
  have hsm : l.count m ≤ l.count s := le_of_not_lt hcon
  have : (l.all fun t => decide (l.count t ≤ l.count s)) = true := by
    rw [List.all_eq_true]
    intro t ht
    exact decide_eq_true (le_trans (hmmax t ht) hsm)
  rw [this] at hps
  exact Bool.noConfusion hps

theorem sortedDedup_canonical {l₁ l₂ : List (List Char)}
    (h : ∀ a, a ∈ l₁ ↔ a ∈ l₂) :
    List.insertionSort (· ≤ ·) l₁.dedup = List.insertionSort (· ≤ ·) l₂.dedup := by
  have hperm : l₁.dedup.Perm l₂.dedup :=
    (List.perm_ext_iff_of_nodup (List.nodup_dedup l₁) (List.nodup_dedup l₂)).mpr
      (by intro a; rw [List.mem_dedup, List.mem_dedup]; exact h a)
  have p1 := List.perm_insertionSort (α := List Char) (· ≤ ·) l₁.dedup
  have p2 := List.perm_insertionSort (α := List Char) (· ≤ ·) l₂.dedup
  exact List.eq_of_perm_of_sorted ((p1.trans hperm).trans p2.symm)
    (List.sorted_insertionSort _ _) (List.sorted_insertionSort _ _)

theorem process_image_def (texts : List (List Char)) :
    process_image texts =
      (List.insertionSort (· ≤ ·) ((texts.map extract_codes).flatten).dedup,
       if ((texts.map extract_dates).flatten).isEmpty then []
       else (most_common1 (((texts.map extract_dates).flatten).map normalizeDate)).getD []) :=
  rfl

/-- C1: for every nonempty multiset of normalized date candidate strings
    collected in encounter order across the variant passes, the aggregator
    (`Counter(...).most_common(1)[0][0]`, `src/app.py` line 81) returns the
    most frequently occurring normalized string, and on ties the
    earliest-encountered one: the pipeline's date is an element `m` of the
    observation list whose count is maximal and such that every observation
    occurring strictly before the first occurrence of `m` has strictly
    smaller count. -/
theorem claim_C1 (texts : List (List Char)) (h : dateObservations texts ≠ []) :
    ∃ m, most_common1 (dateObservations texts) = some m ∧
      (process_image texts).2 = m ∧
      m ∈ dateObservations texts ∧
      (∀ s ∈ dateObservations texts,
        (dateObservations texts).count s ≤ (dateObservations texts).count m) ∧
      ∃ l₁ l₂, dateObservations texts = l₁ ++ m :: l₂ ∧
        ∀ s ∈ l₁, (dateObservations texts).count s < (dateObservations texts).count m := by
  obtain ⟨m, hm, hmem, hmax, hdec⟩ := most_common1_spec h
  refine ⟨m, hm, ?_, hmem, hmax, hdec⟩
  have hfl : (texts.map extract_dates).flatten ≠ [] := by
    intro e
    exact h (by unfold dateObservations; rw [e]; rfl)
  have hne : ((texts.map extract_dates).flatten).isEmpty = false := by
    rw [Bool.eq_false_iff]
    intro hemp
    exact hfl (List.isEmpty_iff.mp hemp)
  rw [process_image_def]
  simp only [hne, Bool.false_eq_true, if_false]
  have : (((texts.map extract_dates).flatten).map normalizeDate) = dateObservations texts := rfl
  rw [this, hm]
  rfl

/-- C1 witness: the two concrete observation sequences of the claim, obtained
    from three (resp. two) variant blobs each containing one loose date,
    yield the majority date `21/08/25` (resp. the earliest-encountered
    `18/11/25` on the tie). -/
theorem claim_C1_witness :
    dateObservations ["21/08/25".data, "21/08/25".data, "18/11/25".data]
      = ["21/08/25".data, "21/08/25".data, "18/11/25".data] ∧
    (process_image ["21/08/25".data, "21/08/25".data, "18/11/25".data]).2 = "21/08/25".data ∧
    (process_image ["18/11/25".data, "21/08/25".data]).2 = "18/11/25".data := by
  have h1 : dateObservations ["21/08/25".data, "21/08/25".data, "18/11/25".data] ≠ [] := by
    decide
  obtain ⟨m, hm, hp, _⟩ := claim_C1 _ h1
  have hm2 : most_common1 (dateObservations
      ["21/08/25".data, "21/08/25".data, "18/11/25".data]) = some ("21/08/25".data) := by
    decide
  obtain rfl := Option.some.inj (hm2.symm.trans hm)
  exact ⟨by decide, hp, by decide⟩

/-- C2 (amended): every code in the returned code list is literally a
    substring of at least one recognizer text blob of the run; the returned
    date, when non-empty, is the separator-normalization of a string
    literally present as a substring of some blob - the date string itself
    need not occur verbatim in any blob, because the aggregator returns the
    normalized form. -/
theorem claim_C2 (texts : List (List Char)) :
    (∀ c ∈ (process_image texts).1, ∃ t ∈ texts, c <:+: t) ∧
    ((process_image texts).2 ≠ [] →
      ∃ t ∈ texts, ∃ raw, raw <:+: t ∧ normalizeDate raw = (process_image texts).2) := by
  constructor
  · intro c hc
    rw [process_image_def] at hc
    have hc2 : c ∈ ((texts.map extract_codes).flatten).dedup :=
      (List.perm_insertionSort (α := List Char) (· ≤ ·) _).mem_iff.mp hc
    rw [List.mem_dedup, List.mem_flatten] at hc2
    obtain ⟨lc, hlc, hclc⟩ := hc2
    obtain ⟨t, ht, rfl⟩ := List.mem_map.mp hlc
    exact ⟨t, ht, (extract_codes_sound hclc).1⟩
  · intro hd
    by_cases he : ((texts.map extract_dates).flatten).isEmpty = true
    · exfalso
      apply hd
      rw [process_image_def]
      simp [he]
    · have hne : dateObservations texts ≠ [] := by
        intro e
        apply he
        rw [List.isEmpty_iff]
        exact List.map_eq_nil_iff.mp
          (e : ((texts.map extract_dates).flatten).map normalizeDate = [])
      obtain ⟨m, hm, hmem, _⟩ := most_common1_spec hne
      have he2 : ((texts.map extract_dates).flatten).isEmpty = false := by
        rw [Bool.eq_false_iff]
        exact he
      have hp2 : (process_image texts).2 = m := by
        rw [process_image_def]
        simp only [he2, Bool.false_eq_true, if_false]
        have : (((texts.map extract_dates).flatten).map normalizeDate)
            = dateObservations texts := rfl
        rw [this, hm]
        rfl
      rw [hp2]
      obtain ⟨raw, hraw, hnorm⟩ := List.mem_map.mp hmem
      rw [List.mem_flatten] at hraw
      obtain ⟨ld, hld, hrd⟩ := hraw
      obtain ⟨t, ht, rfl⟩ := List.mem_map.mp hld
      exact ⟨t, ht, raw, (extract_dates_sound hrd).1, hnorm⟩

/-- C2 counterexample: on the single blob `MFD ON 21.08.25` the pipeline
    returns the date `21/08/25`, which is not literally present as a
    substring of the blob (only its unnormalized form `21.08.25` is), so the
    claim as stated is false. -/
theorem claim_C2_cex :
    (process_image ["MFD ON 21.08.25".data]).2 = "21/08/25".data ∧
    ¬ ("21/08/25".data <:+: "MFD ON 21.08.25".data) := by
  exact ⟨by decide, by decide⟩

/-- C2 witness: on the spec's end-to-end example blob, the code and the date
    are as the spec says, and the date is the normalization of a substring
    of the blob. -/
theorem claim_C2_witness :
    (∃ t ∈ ["ABC 123 XYZ 789\nMFD ON 21.08.25".data], ∃ raw, raw <:+: t ∧
      normalizeDate raw = (process_image ["ABC 123 XYZ 789\nMFD ON 21.08.25".data]).2) ∧
    (process_image ["ABC 123 XYZ 789\nMFD ON 21.08.25".data]).1
      = ["ABC 123 XYZ 789".data] ∧
    (process_image ["ABC 123 XYZ 789\nMFD ON 21.08.25".data]).2 = "21/08/25".data :=
  ⟨(claim_C2 _).2 (by decide), by decide, by decide⟩

/-- C3 counterexample: the blob `21.08.25` contains no anchored match and
    contains a date-shaped token with the looser separator class (the whole
    blob), yet the fallback search returns nothing - the fallback pattern of
    `src/app.py` line 68 accepts only `/` as separator, so the claim as
    stated is false. -/
theorem claim_C3_cex :
    mfdFindall "21.08.25".data = [] ∧
    spec_looseDateShaped "21.08.25".data = true ∧
    ("21.08.25".data <:+: "21.08.25".data) ∧
    extract_dates "21.08.25".data = [] :=
  ⟨by decide, by decide, ⟨[], [], by simp⟩, by decide⟩

/-- C3 (amended): for every blob with no anchored match, the fallback date
    search returns exactly the loose-pattern matches, and every returned
    token is date-shaped with `/` as both separators (tokens with `.`, `-`
    or whitespace separators are not found by the fallback; the looser
    separator class belongs to the anchored pattern). -/
theorem claim_C3_amended (text : List Char) (h : mfdFindall text = []) :
    extract_dates text = looseFindall text ∧
    ∀ d ∈ extract_dates text, slashShaped d = true ∧ d <:+: text := by
  have he : extract_dates text = looseFindall text := by
    unfold extract_dates
    rw [if_pos (List.isEmpty_iff.mpr h)]
  refine ⟨he, ?_⟩
  intro d hd
  rw [he] at hd
  obtain ⟨hinf, hsh⟩ := looseFindall_sound hd
  exact ⟨hsh, hinf⟩

/-- C3 witness: a blob with two slash-separated dates and no anchor, on
    which the fallback finds exactly those two tokens. -/
theorem claim_C3_witness :
    extract_dates "18/11/25 foo 21/08/2025".data
      = looseFindall "18/11/25 foo 21/08/2025".data ∧
    extract_dates "18/11/25 foo 21/08/2025".data
      = ["18/11/25".data, "21/08/2025".data] :=
  ⟨(claim_C3_amended _ (by decide)).1, by decide⟩

/-- C4 counterexample: the tab-separated token `AB1<TAB>CD2<TAB>EF3<TAB>GH4`
    does not conform to the spec's code grammar (single space separators),
    yet code extraction returns it - the source's pattern separates groups
    with `\s`, which matches any whitespace character, so the claim as
    stated is false. -/
theorem claim_C4_cex :
    extract_codes "AB1\tCD2\tEF3\tGH4".data = ["AB1\tCD2\tEF3\tGH4".data] ∧
    spec_codeGrammar "AB1\tCD2\tEF3\tGH4".data = false :=
  ⟨by decide, by decide⟩

/-- C4 (amended): every token returned by code extraction consists of four
    groups of three upper-case alphanumeric characters with each group
    separated by a single whitespace character (the regex class `\s`: space,
    tab, newline, carriage return, vertical tab or form feed - not only the
    space character), and is a substring of the blob; tokens with lower-case
    letters or other spacing are dropped without error. -/
theorem claim_C4_amended (text : List Char) :
    ∀ c ∈ extract_codes text, codeShapedWS c = true ∧ c <:+: text := by
  intro c hc
  obtain ⟨hinf, hsh⟩ := extract_codes_sound hc
  exact ⟨hsh, hinf⟩

/-- C4 witness: the code of the spec's end-to-end example is extracted and
    satisfies the (whitespace-separator) code shape. -/
theorem claim_C4_witness :
    codeShapedWS "ABC 123 XYZ 789".data = true :=
  (claim_C4_amended "ABC 123 XYZ 789\nMFD ON 21.08.25".data
    "ABC 123 XYZ 789".data (by decide)).1

/-- C5: for every blob that contains at least one anchored date match, date
    extraction returns exactly the anchored matches, and every loose
    date-shaped token elsewhere in the blob is ignored (the loose pattern is
    not consulted at all: `src/app.py` lines 67-69). -/
theorem claim_C5 (text : List Char) (h : mfdFindall text ≠ []) :
    extract_dates text = mfdFindall text ∧
    ∀ d ∈ extract_dates text, d ∈ mfdFindall text := by
  have he : extract_dates text = mfdFindall text := by
    unfold extract_dates
    rw [if_neg]
    intro hemp
    exact h (List.isEmpty_iff.mp hemp)
  exact ⟨he, fun d hd => he ▸ hd⟩

/-- C5 witness: a blob containing both an anchored date (`MFD ON 21.08.25`)
    and an unrelated loose date (`18/11/25`): only the anchored date is
    returned and the loose one, though the loose pattern would find it, is
    ignored. -/
theorem claim_C5_witness :
    extract_dates "MFD ON 21.08.25 or 18/11/25".data
      = mfdFindall "MFD ON 21.08.25 or 18/11/25".data ∧
    extract_dates "MFD ON 21.08.25 or 18/11/25".data = ["21.08.25".data] ∧
    "18/11/25".data ∈ looseFindall "MFD ON 21.08.25 or 18/11/25".data ∧
    "18/11/25".data ∉ extract_dates "MFD ON 21.08.25 or 18/11/25".data :=
  ⟨(claim_C5 _ (by decide)).1, by decide, by decide, by decide⟩

/-- C6: the aggregated code sequence is deduplicated (no element twice),
    sorted lexicographically, its membership is exactly the union of the
    per-variant code sets, its length is the cardinality of that union
    (overlaps never double-counted), and it is invariant under any
    permutation of the variant order. -/
theorem claim_C6 (texts : List (List Char)) :
    (process_image texts).1.Nodup ∧
    List.Sorted (· ≤ ·) (process_image texts).1 ∧
    (∀ c, c ∈ (process_image texts).1 ↔ ∃ t ∈ texts, c ∈ extract_codes t) ∧
    (process_image texts).1.length = ((texts.map extract_codes).flatten).toFinset.card ∧
    ∀ texts₂, texts₂.Perm texts → (process_image texts₂).1 = (process_image texts).1 := by
  have hdef : (process_image texts).1 =
      List.insertionSort (· ≤ ·) ((texts.map extract_codes).flatten).dedup := by
    rw [process_image_def]
  have hperm := List.perm_insertionSort (α := List Char) (· ≤ ·)
    ((texts.map extract_codes).flatten).dedup
  refine ⟨?_, ?_, ?_, ?_, ?_⟩
  · rw [hdef]
    exact hperm.symm.nodup (List.nodup_dedup _)
  · rw [hdef]
    exact List.sorted_insertionSort _ _
  · intro c
    rw [hdef, hperm.mem_iff, List.mem_dedup, List.mem_flatten]
    constructor
    · rintro ⟨lc, hlc, hclc⟩
      obtain ⟨t, ht, rfl⟩ := List.mem_map.mp hlc
      exact ⟨t, ht, hclc⟩
    · rintro ⟨t, ht, hc⟩
      exact ⟨extract_codes t, List.mem_map.mpr ⟨t, ht, rfl⟩, hc⟩
  · rw [hdef, hperm.length_eq, List.card_toFinset]
  · intro texts₂ hp
    have hflat : ((texts₂.map extract_codes).flatten).Perm
        ((texts.map extract_codes).flatten) :=
      (hp.map extract_codes).flatten
    have hdef₂ : (process_image texts₂).1 =
        List.insertionSort (· ≤ ·) ((texts₂.map extract_codes).flatten).dedup := by
      rw [process_image_def]
    rw [hdef, hdef₂]
    exact sortedDedup_canonical (fun a => hflat.mem_iff)

/-- C6 witness: two variants with overlapping code sets (sizes 1 and 2,
    union size 2): the aggregate has length 2 and is unchanged when the two
    variants are swapped. -/
theorem claim_C6_witness :
    (process_image ["AAA BBB CCC DDD".data,
        "AAA BBB CCC DDD EEE FFF GGG HHH".data]).1
      = ["AAA BBB CCC DDD".data, "EEE FFF GGG HHH".data] ∧
    (process_image ["AAA BBB CCC DDD".data,
        "AAA BBB CCC DDD EEE FFF GGG HHH".data]).1.length = 2 ∧
    (process_image ["AAA BBB CCC DDD EEE FFF GGG HHH".data,
        "AAA BBB CCC DDD".data]).1
      = (process_image ["AAA BBB CCC DDD".data,
        "AAA BBB CCC DDD EEE FFF GGG HHH".data]).1 :=
  ⟨by decide, by decide,
    (claim_C6 _).2.2.2.2 _ (List.Perm.swap _ _ _)⟩

/-- C7: date normalization maps each of the separators `.`, `-` and space
    to the canonical `/` (and leaves every other character unchanged), so
    `21.08.25`, `21-08-25` and `21 08 25` all normalize to `21/08/25` and
    collapse to the same voting key. -/
theorem claim_C7 :
    (∀ d, normalizeDate d =
      d.map fun c => if c = '.' || c = '-' || c = ' ' then '/' else c) ∧
    normalizeDate "21.08.25".data = "21/08/25".data ∧
    normalizeDate "21-08-25".data = "21/08/25".data ∧
    normalizeDate "21 08 25".data = "21/08/25".data := by
  refine ⟨?_, by decide, by decide, by decide⟩
  intro d
  unfold normalizeDate replaceChar
  rw [List.map_map, List.map_map]
  congr 1
  funext c
  by_cases h1 : c = '.'
  · simp [h1, Function.comp]
  · by_cases h2 : c = '-'
    · simp [h1, h2, Function.comp]
    · by_cases h3 : c = ' '
      · simp [h1, h2, h3, Function.comp]
      · simp [h1, h2, h3, Function.comp]

/-- C8: if any per-variant recognizer call fails, the pipeline propagates
    the failure as an explicit error and never returns an ok result; in
    particular a recognizer failure is never converted into the empty result
    (`src/app.py` lines 54-55 have no exception handling). -/
theorem claim_C8 (results : List (Except String (List Char)))
    (h : ∃ e, Except.error e ∈ results) :
    (∃ e, process_imageE results = Except.error e) ∧
    ∀ res, process_imageE results ≠ Except.ok res := by
  have hg : ∃ e2, gatherTexts results = Except.error e2 := by
    obtain ⟨e, he⟩ := h
    induction results with
    | nil => simp at he
    | cons x rest ih =>
      cases x with
      | error e2 => exact ⟨e2, rfl⟩
      | ok t =>
        have he2 : Except.error e ∈ rest := by
          rcases List.mem_cons.mp he with heq | h2
          · exact absurd heq (by simp)
          · exact h2
        obtain ⟨e3, he3⟩ := ih he2
        refine ⟨e3, ?_⟩
        unfold gatherTexts
        rw [he3]
  obtain ⟨e, he⟩ := hg
  constructor
  · exact ⟨e, by unfold process_imageE; rw [he]⟩
  · intro res hres
    unfold process_imageE at hres
    rw [he] at hres
    exact Except.noConfusion hres

/-- C8 witness: a run whose first recognizer call raises: the pipeline
    reports exactly that error and no ok result. -/
theorem claim_C8_witness :
    process_imageE [Except.error "TesseractNotFoundError", Except.ok "21/08/25".data]
      = Except.error "TesseractNotFoundError" ∧
    ∀ res, process_imageE [Except.error "TesseractNotFoundError",
      Except.ok "21/08/25".data] ≠ Except.ok res :=
  ⟨rfl, (claim_C8 _ ⟨"TesseractNotFoundError", List.mem_cons_self _ _⟩).2⟩

/-- C9: when no blob of the run contains a code-shaped or a date-shaped
    substring, the pipeline returns normally with the empty code list and
    the empty date, and does not raise. -/
theorem claim_C9 (texts : List (List Char))
    (h : ∀ t ∈ texts, hasCodeSeg t = false ∧ hasDateSeg t = false) :
    process_image texts = ([], []) := by
  have hc : ∀ t ∈ texts, extract_codes t = [] := by
    intro t ht
    cases hx : extract_codes t with
    | nil => rfl
    | cons m ms =>
      exfalso
      have hm : m ∈ extract_codes t := by rw [hx]; simp
      obtain ⟨hinf, hsh⟩ := extract_codes_sound hm
      have hseg := hasCodeSeg_of hinf hsh
      rw [(h t ht).1] at hseg
      exact Bool.noConfusion hseg
  have hd : ∀ t ∈ texts, extract_dates t = [] := by
    intro t ht
    cases hx : extract_dates t with
    | nil => rfl
    | cons m ms =>
      exfalso
      have hm : m ∈ extract_dates t := by rw [hx]; simp
      obtain ⟨hinf, hsh⟩ := extract_dates_sound hm
      have hseg := hasDateSeg_of hinf hsh
      rw [(h t ht).2] at hseg
      exact Bool.noConfusion hseg
  have hcf : (texts.map extract_codes).flatten = [] := by
    rw [List.flatten_eq_nil_iff]
    intro x hx
    obtain ⟨t, ht, rfl⟩ := List.mem_map.mp hx
    exact hc t ht
  have hdf : (texts.map extract_dates).flatten = [] := by
    rw [List.flatten_eq_nil_iff]
    intro x hx
    obtain ⟨t, ht, rfl⟩ := List.mem_map.mp hx
    exact hd t ht
  rw [process_image_def, hcf, hdf]
  rfl

/-- C9 witness: a blob with no code-shaped and no date-shaped substring
    yields the empty result. -/
theorem claim_C9_witness :
    process_image ["no tokens".data] = ([], []) :=
  claim_C9 _ (by decide)

/-- C10: anchored dates carry no extra weight in aggregation - anchor
    priority acts only within one variant's blob, after which anchored and
    loose candidates vote as equals: on a run where variant 1 yields the
    anchored date `18/11/25` and variants 2 and 3 yield only the loose date
    `21/08/25`, the pipeline's date is the loose majority `21/08/25`, not
    the anchored `18/11/25`. -/
theorem claim_C10 :
    mfdFindall "MFD ON 18/11/25".data = ["18/11/25".data] ∧
    mfdFindall "21/08/25".data = [] ∧
    extract_dates "21/08/25".data = ["21/08/25".data] ∧
    (process_image ["MFD ON 18/11/25".data, "21/08/25".data,
      "21/08/25".data, "".data]).2 = "21/08/25".data ∧
    (process_image ["MFD ON 18/11/25".data, "21/08/25".data,
      "21/08/25".data, "".data]).2 ≠ "18/11/25".data :=
  ⟨by decide, by decide, by decide, by decide, by decide⟩

end CigApp
